import Mathlib

/-!
Verification of the version-management core of an LSM storage engine
(leveldb fork): `db/version_edit.h`, `db/version_set.h`, `util/arena.h`.

Functions whose bodies live in the headers (`FileMetaData`'s constructor,
`VersionEdit`'s setters and `AddFile`/`DeleteFile`, `VersionSet`'s inline
counter operations, `Arena::Allocate`) are translated directly from that
source.  Functions that the headers only declare (`VersionEdit::EncodeTo` /
`DecodeFrom`, `VersionSet::LogAndApply`, `Recover`, `Finalize`,
`PickCompaction`, the version `Builder`) are modelled from the
specification, as marked in their doc comments.
-/

namespace LevelDB

/-- Number of on-disk levels, `config::kNumLevels` (spec: L fixed levels,
typically 7). -/
def kNumLevels : Nat := 7

/-- Byte strings: contents of a C++ `std::string` / `Slice`. -/
abbrev Bytes := List Nat

/-- From `db/version_edit.h`: `struct FileMetaData`.  The constructor
initializes `refs` to 0, `allowed_seeks` to `1 << 30` and `file_size` to 0;
`number`, `smallest`, `largest` are set by the code that creates the record. -/
structure FileMetaData where
  refs : Int
  allowed_seeks : Int
  number : Nat
  file_size : Nat
  smallest : Bytes
  largest : Bytes
deriving DecidableEq, Repr

/-- Field values established by `FileMetaData()`'s initializer list. -/
def FileMetaData.init : FileMetaData :=
  { refs := 0, allowed_seeks := 2 ^ 30, number := 0, file_size := 0,
    smallest := [], largest := [] }

/-- Strict lexicographic order on `(level, file number)` pairs: the
comparison used by `std::set<std::pair<int, uint64_t>>` in
`VersionEdit::DeletedFileSet`. -/
def pairLt (p q : Nat × Nat) : Bool :=
  decide (p.1 < q.1) || (decide (p.1 = q.1) && decide (p.2 < q.2))

/-- Ordered insertion into a sorted duplicate-free list: the effect of
`std::set::insert` on the set's sorted element sequence. -/
def setInsert (p : Nat × Nat) : List (Nat × Nat) → List (Nat × Nat)
  | [] => [p]
  | q :: rest =>
    if pairLt p q then p :: q :: rest
    else if p = q then q :: rest
    else q :: setInsert p rest

/-- From `db/version_edit.h`: `class VersionEdit`.  The five optional fields
carry explicit has-value flags; `deleted_files` is kept as the sorted element
sequence of the `std::set`. -/
structure VersionEdit where
  comparator : Bytes
  log_number : Nat
  prev_log_number : Nat
  next_file_number : Nat
  last_sequence : Nat
  has_comparator : Bool
  has_log_number : Bool
  has_prev_log_number : Bool
  has_next_file_number : Bool
  has_last_sequence : Bool
  compact_pointers : List (Nat × Bytes)
  deleted_files : List (Nat × Nat)
  new_files : List (Nat × FileMetaData)
deriving DecidableEq, Repr

/-- `VersionEdit::Clear()`: all flags false, numeric fields zero, collections
empty (the state of a freshly constructed edit). -/
def VersionEdit.Clear : VersionEdit :=
  { comparator := [], log_number := 0, prev_log_number := 0,
    next_file_number := 0, last_sequence := 0,
    has_comparator := false, has_log_number := false,
    has_prev_log_number := false, has_next_file_number := false,
    has_last_sequence := false,
    compact_pointers := [], deleted_files := [], new_files := [] }

/-- `VersionEdit::SetComparatorName`. -/
def VersionEdit.SetComparatorName (e : VersionEdit) (name : Bytes) : VersionEdit :=
  { e with has_comparator := true, comparator := name }

/-- `VersionEdit::SetLogNumber`. -/
def VersionEdit.SetLogNumber (e : VersionEdit) (num : Nat) : VersionEdit :=
  { e with has_log_number := true, log_number := num }

/-- `VersionEdit::SetPrevLogNumber`. -/
def VersionEdit.SetPrevLogNumber (e : VersionEdit) (num : Nat) : VersionEdit :=
  { e with has_prev_log_number := true, prev_log_number := num }

/-- `VersionEdit::SetNextFile`. -/
def VersionEdit.SetNextFile (e : VersionEdit) (num : Nat) : VersionEdit :=
  { e with has_next_file_number := true, next_file_number := num }

/-- `VersionEdit::SetLastSequence`. -/
def VersionEdit.SetLastSequence (e : VersionEdit) (seq : Nat) : VersionEdit :=
  { e with has_last_sequence := true, last_sequence := seq }

/-- `VersionEdit::SetCompactPointer`: `push_back` of the `(level, key)` pair. -/
def VersionEdit.SetCompactPointer (e : VersionEdit) (level : Nat) (key : Bytes) :
    VersionEdit :=
  { e with compact_pointers := e.compact_pointers ++ [(level, key)] }

/-- `VersionEdit::AddFile`: default-constructs a `FileMetaData` and sets its
`number`, `file_size`, `smallest` and `largest` fields, then `push_back`s the
`(level, f)` pair. -/
def VersionEdit.AddFile (e : VersionEdit) (level file file_size : Nat)
    (smallest largest : Bytes) : VersionEdit :=
  { e with
    new_files := e.new_files ++
      [(level, { FileMetaData.init with
                  number := file, file_size := file_size,
                  smallest := smallest, largest := largest })] }

/-- `VersionEdit::DeleteFile`: `std::set` insertion of `(level, file)`. -/
def VersionEdit.DeleteFile (e : VersionEdit) (level file : Nat) : VersionEdit :=
  { e with deleted_files := setInsert (level, file) e.deleted_files }

/-- Per-level compaction hints cached on a `Version` (`file_to_compact_`,
`file_to_compact_level_`, `compaction_score_`, `compaction_level_`) together
with the per-level file lists `files_[kNumLevels]`.  The `compaction_score_`
double is modelled as an exact rational. -/
structure VersionModel where
  files : List (List FileMetaData)
  file_to_compact : Option FileMetaData
  file_to_compact_level : Int
  compaction_score : ℚ
  compaction_level : Int
deriving DecidableEq, Repr

/-- Field values established by `Version`'s constructor (the file lists
start empty at every level). -/
def VersionModel.init : VersionModel :=
  { files := List.replicate kNumLevels [],
    file_to_compact := none, file_to_compact_level := -1,
    compaction_score := -1, compaction_level := -1 }

/-- File list of the given level (`files_[level]`). -/
def VersionModel.levelFiles (v : VersionModel) (level : Nat) : List FileMetaData :=
  v.files.getD level []

/-- Mutable state of a `VersionSet`: the monotonic counters, the current
version, the per-level compaction resume pointers and whether a manifest
stream is open.  The reference-counted history list is not needed by the
claims and is omitted. -/
structure VersionSetState where
  next_file_number : Nat
  manifest_file_number : Nat
  last_sequence : Nat
  log_number : Nat
  prev_log_number : Nat
  current : VersionModel
  compact_pointer : List Bytes
  descriptor_open : Bool
deriving DecidableEq, Repr

/-- `VersionSet::NewFileNumber()`: `return next_file_number_++;` on a
`uint64_t`, so the stored counter wraps modulo `2 ^ 64`. -/
def VersionSetState.NewFileNumber (s : VersionSetState) : Nat × VersionSetState :=
  (s.next_file_number, { s with next_file_number := (s.next_file_number + 1) % 2 ^ 64 })

/-- `VersionSet::ReuseFileNumber(file_number)`: roll the counter back iff
`next_file_number_ == file_number + 1` (computed in `uint64_t`). -/
def VersionSetState.ReuseFileNumber (s : VersionSetState) (file_number : Nat) :
    VersionSetState :=
  if s.next_file_number = (file_number + 1) % 2 ^ 64 then
    { s with next_file_number := file_number }
  else s

/-- `VersionSet::LastSequence()`. -/
def VersionSetState.LastSequence (s : VersionSetState) : Nat :=
  s.last_sequence

/-- `VersionSet::SetLastSequence(s)`: `assert(s >= last_sequence_)` then
store.  The assertion's failure branch is modelled as `none`. -/
def VersionSetState.SetLastSequence (s : VersionSetState) (x : Nat) :
    Option VersionSetState :=
  if s.last_sequence ≤ x then some { s with last_sequence := x } else none

/-- Repeated allocation through `NewFileNumber`, collecting the returned ids. -/
def allocFileNumbers : Nat → VersionSetState → List Nat × VersionSetState
  | 0, s => ([], s)
  | k + 1, s =>
    let r := s.NewFileNumber
    let rest := allocFileNumbers k r.2
    (r.1 :: rest.1, rest.2)

/-- Application of a whole sequence of `SetLastSequence` calls; `none` as soon
as one call's assertion fails. -/
def applySetLastSequence : List Nat → VersionSetState → Option VersionSetState
  | [], s => some s
  | x :: xs, s =>
    match s.SetLastSequence x with
    | some s' => applySetLastSequence xs s'
    | none => none

/-- Fast-path allocation state of `util/arena.h`: `alloc_ptr_` (as an abstract
address) and `alloc_bytes_remaining_`. -/
structure ArenaState where
  alloc_ptr : Nat
  alloc_bytes_remaining : Nat
deriving DecidableEq, Repr

/-- Outcome of `Arena::Allocate`: either the inline fast path returned
`result` leaving the arena in state `s`, or the call was delegated to
`AllocateFallback(bytes)` with the fast-path state still `s`. -/
inductive AllocOutcome where
  | fast (result : Nat) (s : ArenaState)
  | fallback (bytes : Nat) (s : ArenaState)
deriving DecidableEq, Repr

/-- `Arena::Allocate` from `util/arena.h`: `assert(bytes > 0)` (failure
modelled as `none`); if `bytes <= alloc_bytes_remaining_` return `alloc_ptr_`
and advance it by `bytes`, shrinking the remaining count by `bytes`;
otherwise delegate to `AllocateFallback` without touching the fast-path
state. -/
def Arena.Allocate (bytes : Nat) (s : ArenaState) : Option AllocOutcome :=
  if bytes = 0 then none
  else if bytes ≤ s.alloc_bytes_remaining then
    some (.fast s.alloc_ptr
      { alloc_ptr := s.alloc_ptr + bytes
        alloc_bytes_remaining := s.alloc_bytes_remaining - bytes })
  else some (.fallback bytes s)

/-- Modelled from the spec: base-128 little-endian varint encoding of an
unsigned integer (`PutVarint32` / `PutVarint64`); `fuel` bounds the number
of division steps and `putVarint` passes `n` itself, which always
suffices. -/
def putVarintAux : Nat → Nat → Bytes
  | 0, n => [n % 128]
  | fuel + 1, n =>
    if n < 128 then [n] else (n % 128 + 128) :: putVarintAux fuel (n / 128)

/-- Canonical varint encoding of `n`. -/
def putVarint (n : Nat) : Bytes :=
  putVarintAux n n

/-- Modelled from the spec: varint decoding (`GetVarint32` / `GetVarint64`).
`fuel` bounds the number of bytes one varint may span (5 for the 32-bit
form, 10 for the 64-bit form); running past the bound or off the end of the
input is a corruption (`none`). -/
def getVarintLoop : Nat → Nat → Nat → Bytes → Option (Nat × Bytes)
  | 0, _, _, _ => none
  | _ + 1, _, _, [] => none
  | fuel + 1, shift, acc, b :: rest =>
    if b < 128 then some (acc + b * 2 ^ shift, rest)
    else getVarintLoop fuel (shift + 7) (acc + b % 128 * 2 ^ shift) rest

/-- `GetVarint32`: at most five bytes. -/
def getVarint32 (l : Bytes) : Option (Nat × Bytes) :=
  getVarintLoop 5 0 0 l

/-- `GetVarint64`: at most ten bytes. -/
def getVarint64 (l : Bytes) : Option (Nat × Bytes) :=
  getVarintLoop 10 0 0 l

/-- Modelled from the spec: length-prefixed byte string
(`PutLengthPrefixedSlice`) — varint length, then the raw bytes. -/
def putSlice (s : Bytes) : Bytes :=
  putVarint s.length ++ s

/-- Modelled from the spec: `GetLengthPrefixedSlice` — read a varint length,
then that many bytes; too few remaining bytes is a corruption. -/
def getSlice (l : Bytes) : Option (Bytes × Bytes) :=
  match getVarint32 l with
  | some (n, rest) =>
    if n ≤ rest.length then some (rest.take n, rest.drop n) else none
  | none => none

/-- Manifest record tag for the comparator name (spec §4.1 table). -/
def kComparator : Nat := 1

/-- Manifest record tag for the log file number. -/
def kLogNumber : Nat := 2

/-- Manifest record tag for the next file number. -/
def kNextFileNumber : Nat := 3

/-- Manifest record tag for the last sequence number. -/
def kLastSequence : Nat := 4

/-- Manifest record tag for a per-level compaction pointer. -/
def kCompactPointer : Nat := 5

/-- Manifest record tag for a deleted file. -/
def kDeletedFile : Nat := 6

/-- Manifest record tag for a new file. -/
def kNewFile : Nat := 7

/-- Manifest record tag for the previous log file number. -/
def kPrevLogNumber : Nat := 9

/-- Modelled from the spec: decoding of a level number — a decoded level
must lie in `[0, kNumLevels)`, anything else is a corruption. -/
def getLevel (l : Bytes) : Option (Nat × Bytes) :=
  match getVarint32 l with
  | some (v, rest) => if v < kNumLevels then some (v, rest) else none
  | none => none

/-- One tagged record of the manifest encoding of a `VersionEdit`
(spec §4.1): one constructor per row of the tag table. -/
inductive ERec where
  | comp (name : Bytes)
  | log (n : Nat)
  | prev (n : Nat)
  | next (n : Nat)
  | last (n : Nat)
  | cp (level : Nat) (key : Bytes)
  | del (level : Nat) (number : Nat)
  | nf (level : Nat) (f : FileMetaData)
deriving DecidableEq, Repr

/-- Byte string of one tagged record: the tag as a varint, then the payload
of §4.1 (varints for integers, length-prefixed strings for keys and names). -/
def encRec : ERec → Bytes
  | .comp s => putVarint kComparator ++ putSlice s
  | .log n => putVarint kLogNumber ++ putVarint n
  | .prev n => putVarint kPrevLogNumber ++ putVarint n
  | .next n => putVarint kNextFileNumber ++ putVarint n
  | .last n => putVarint kLastSequence ++ putVarint n
  | .cp level key => putVarint kCompactPointer ++ putVarint level ++ putSlice key
  | .del level number =>
    putVarint kDeletedFile ++ putVarint level ++ putVarint number
  | .nf level f =>
    putVarint kNewFile ++ putVarint level ++ putVarint f.number ++
      putVarint f.file_size ++ putSlice f.smallest ++ putSlice f.largest

/-- Effect of one decoded record on the edit under reconstruction: each
record is applied through the corresponding `VersionEdit` mutator, exactly
as the decoder does. -/
def applyRec (e : VersionEdit) : ERec → VersionEdit
  | .comp s => e.SetComparatorName s
  | .log n => e.SetLogNumber n
  | .prev n => e.SetPrevLogNumber n
  | .next n => e.SetNextFile n
  | .last n => e.SetLastSequence n
  | .cp level key => e.SetCompactPointer level key
  | .del level number => e.DeleteFile level number
  | .nf level f => e.AddFile level f.number f.file_size f.smallest f.largest

/-- Record sequence of the encoding of `e`: the present optional fields in
encoding order, then the repeatable `compact_pointer`, `deleted_file` and
`new_file` records. -/
def recsOf (e : VersionEdit) : List ERec :=
  (if e.has_comparator then [ERec.comp e.comparator] else []) ++
    (if e.has_log_number then [ERec.log e.log_number] else []) ++
    (if e.has_prev_log_number then [ERec.prev e.prev_log_number] else []) ++
    (if e.has_next_file_number then [ERec.next e.next_file_number] else []) ++
    (if e.has_last_sequence then [ERec.last e.last_sequence] else []) ++
    e.compact_pointers.map (fun p => ERec.cp p.1 p.2) ++
    e.deleted_files.map (fun p => ERec.del p.1 p.2) ++
    e.new_files.map (fun p => ERec.nf p.1 p.2)

/-- Modelled from the spec: `VersionEdit::EncodeTo` — the concatenation of
the edit's tagged records (spec §4.1). -/
def VersionEdit.EncodeTo (e : VersionEdit) : Bytes :=
  ((recsOf e).map encRec).flatten

/-- Modelled from the spec: the record loop of `VersionEdit::DecodeFrom`.
Reads a varint tag and dispatches on it; an unknown tag, a truncated
payload or an out-of-range level is a corruption (`none`).  `fuel` bounds
the number of loop iterations; every iteration consumes at least the tag
byte, so the input length is always enough. -/
def decodeRecs : Nat → Bytes → VersionEdit → Option VersionEdit
  | _, [], e => some e
  | 0, _ :: _, _ => none
  | fuel + 1, input, e =>
    match getVarint32 input with
    | none => none
    | some (tag, rest) =>
      if tag = kComparator then
        match getSlice rest with
        | some (s, r) => decodeRecs fuel r (e.SetComparatorName s)
        | none => none
      else if tag = kLogNumber then
        match getVarint64 rest with
        | some (n, r) => decodeRecs fuel r (e.SetLogNumber n)
        | none => none
      else if tag = kPrevLogNumber then
        match getVarint64 rest with
        | some (n, r) => decodeRecs fuel r (e.SetPrevLogNumber n)
        | none => none
      else if tag = kNextFileNumber then
        match getVarint64 rest with
        | some (n, r) => decodeRecs fuel r (e.SetNextFile n)
        | none => none
      else if tag = kLastSequence then
        match getVarint64 rest with
        | some (n, r) => decodeRecs fuel r (e.SetLastSequence n)
        | none => none
      else if tag = kCompactPointer then
        match getLevel rest with
        | some (level, r1) =>
          match getSlice r1 with
          | some (key, r2) => decodeRecs fuel r2 (e.SetCompactPointer level key)
          | none => none
        | none => none
      else if tag = kDeletedFile then
        match getLevel rest with
        | some (level, r1) =>
          match getVarint64 r1 with
          | some (number, r2) => decodeRecs fuel r2 (e.DeleteFile level number)
          | none => none
        | none => none
      else if tag = kNewFile then
        match getLevel rest with
        | some (level, r1) =>
          match getVarint64 r1 with
          | some (number, r2) =>
            match getVarint64 r2 with
            | some (size, r3) =>
              match getSlice r3 with
              | some (sm, r4) =>
                match getSlice r4 with
                | some (lg, r5) =>
                  decodeRecs fuel r5 (e.AddFile level number size sm lg)
                | none => none
              | none => none
            | none => none
          | none => none
        | none => none
      else none

/-- Modelled from the spec: `VersionEdit::DecodeFrom` — clear the edit, then
run the record loop over the whole input. -/
def VersionEdit.DecodeFrom (src : Bytes) : Option VersionEdit :=
  decodeRecs src.length src VersionEdit.Clear

/-- Well-formedness of one record: integers fit their wire width, levels are
valid, string lengths fit the 32-bit length prefix, and a `new_file` record
carries the accounting defaults the `FileMetaData` constructor gives it. -/
def wfRec : ERec → Prop
  | .comp s => s.length < 2 ^ 32
  | .log n => n < 2 ^ 64
  | .prev n => n < 2 ^ 64
  | .next n => n < 2 ^ 64
  | .last n => n < 2 ^ 64
  | .cp level key => level < kNumLevels ∧ key.length < 2 ^ 32
  | .del level number => level < kNumLevels ∧ number < 2 ^ 64
  | .nf level f =>
    level < kNumLevels ∧ f.number < 2 ^ 64 ∧ f.file_size < 2 ^ 64 ∧
      f.smallest.length < 2 ^ 32 ∧ f.largest.length < 2 ^ 32

/-- Representation invariant maintained by the `VersionEdit` mutator API
(`Clear`, the setters, `AddFile`, `DeleteFile`): unset optional fields still
hold their `Clear()` defaults, numeric fields fit the integer widths of
their wire format, levels lie in `[0, kNumLevels)`, `deleted_files` is the
sorted element sequence of the `std::set`, and every `new_files` entry
still carries the accounting defaults (`refs = 0`,
`allowed_seeks = 1 << 30`) of a freshly constructed `FileMetaData`. -/
def WFEdit (e : VersionEdit) : Prop :=
  (e.has_comparator = false → e.comparator = []) ∧
    (e.has_log_number = false → e.log_number = 0) ∧
    (e.has_prev_log_number = false → e.prev_log_number = 0) ∧
    (e.has_next_file_number = false → e.next_file_number = 0) ∧
    (e.has_last_sequence = false → e.last_sequence = 0) ∧
    e.comparator.length < 2 ^ 32 ∧
    e.log_number < 2 ^ 64 ∧ e.prev_log_number < 2 ^ 64 ∧
    e.next_file_number < 2 ^ 64 ∧ e.last_sequence < 2 ^ 64 ∧
    (∀ p ∈ e.compact_pointers, p.1 < kNumLevels ∧ p.2.length < 2 ^ 32) ∧
    (∀ p ∈ e.deleted_files, p.1 < kNumLevels ∧ p.2 < 2 ^ 64) ∧
    List.Chain' (fun p q => pairLt p q = true) e.deleted_files ∧
    (∀ p ∈ e.new_files, p.1 < kNumLevels ∧ p.2.refs = 0 ∧
      p.2.allowed_seeks = 2 ^ 30 ∧ p.2.number < 2 ^ 64 ∧
      p.2.file_size < 2 ^ 64 ∧ p.2.smallest.length < 2 ^ 32 ∧
      p.2.largest.length < 2 ^ 32)

/-- Concrete edit exercising every record kind, used by the C3 witness. -/
def sampleEdit : VersionEdit :=
  ((((VersionEdit.Clear.SetComparatorName [108, 100, 98]).SetLogNumber
        12).AddFile 1 7 1000 [97, 0, 0, 0, 0, 0, 0, 0, 1]
      [98, 0, 0, 0, 0, 0, 0, 0, 1]).DeleteFile 2 3).SetCompactPointer 1
    [99, 0, 0, 0, 0, 0, 0, 0, 1]

/-- Modelled from the spec (§3): the user-key part of an encoded internal
key — everything before the 8-byte trailer. -/
def userOf (k : Bytes) : Bytes :=
  k.take (k.length - 8)

/-- Modelled from the spec (§3): the 8-byte trailer of an encoded internal
key, read as a little-endian 64-bit number `(sequence << 8) | type`. -/
def trailerOf (k : Bytes) : Nat :=
  (k.drop (k.length - 8)).foldr (fun b acc => b + 256 * acc) 0

/-- Modelled from the spec (§3): rank of an internal key under the internal
key comparator — user keys compare bytewise (lexicographically), ties break
by the trailer descending so newer entries sort first. -/
def keyRank (k : Bytes) : Bytes ×ₗ ℕᵒᵈ :=
  toLex (userOf k, OrderDual.toDual (trailerOf k))

/-- Strict internal-key order (`InternalKeyComparator::Compare < 0`). -/
def keyLt (a b : Bytes) : Prop :=
  keyRank a < keyRank b

instance : DecidableRel keyLt :=
  fun a b => inferInstanceAs (Decidable (keyRank a < keyRank b))

/-- Order of the per-level file lists at levels ≥ 1: by smallest internal
key (`files_[i]` sorted by `FileMetaData::smallest`). -/
def fileLe (f g : FileMetaData) : Prop :=
  keyRank f.smallest ≤ keyRank g.smallest

instance : DecidableRel fileLe :=
  fun f g => inferInstanceAs (Decidable (keyRank f.smallest ≤ keyRank g.smallest))

instance : IsTotal FileMetaData fileLe :=
  ⟨fun f g => le_total (keyRank f.smallest) (keyRank g.smallest)⟩

instance : IsTrans FileMetaData fileLe :=
  ⟨fun _ _ _ => le_trans⟩

/-- Order of the level-0 file list: by file id descending (newest first). -/
def level0Le (f g : FileMetaData) : Prop :=
  g.number ≤ f.number

instance : DecidableRel level0Le :=
  fun f g => Nat.decLe g.number f.number

/-- A file's recorded smallest key really is no larger than its largest
(the `REQUIRES` of `AddFile`), compared on user keys. -/
def wfFile (f : FileMetaData) : Prop :=
  userOf f.smallest ≤ userOf f.largest

/-- Every file of every level of a version is well formed. -/
def wfVersionFiles (v : VersionModel) : Prop :=
  ∀ l, ∀ f ∈ v.levelFiles l, wfFile f

/-- Every file added by an edit is well formed. -/
def wfEditFiles (e : VersionEdit) : Prop :=
  ∀ p ∈ e.new_files, wfFile p.2

/-- Modelled from the spec (§3): when the Builder adopts a file from an edit
into a Version it initializes the accounting fields — refcount 1 and the
size-proportional seek budget, one seek per 16 KiB with a floor of 100. -/
def adoptFile (f : FileMetaData) : FileMetaData :=
  { f with refs := 1, allowed_seeks := max ((f.file_size : Int) / 16384) 100 }

/-- Disjointness check of consecutive files on user keys: the executable
form of the I1 assertion over a sorted level. -/
def disjointChainB : List FileMetaData → Bool
  | [] => true
  | [_] => true
  | a :: b :: rest =>
    decide (userOf a.largest < userOf b.smallest) && disjointChainB (b :: rest)

/-- Modelled from the spec (§4.2 step 3): build level `l` of the new
version — start from the current list, remove the deleted set, insert the
added files, sort (levels ≥ 1 by smallest key, level 0 by file id
descending) and assert the disjointness invariant I1 on levels ≥ 1 (`none`
models the assertion tripping). -/
def buildLevel (base : List FileMetaData) (edit : VersionEdit) (l : Nat) :
    Option (List FileMetaData) :=
  let kept := base.filter fun f => !(edit.deleted_files.contains (l, f.number))
  let added := (edit.new_files.filter fun p => decide (p.1 = l)).map
    fun p => adoptFile p.2
  if l = 0 then some (List.insertionSort level0Le (kept ++ added))
  else
    let merged := List.insertionSort fileLe (kept ++ added)
    if disjointChainB merged then some merged else none

/-- All the levels of the new version, in level order. -/
def buildLevels (edit : VersionEdit) (base : VersionModel) :
    List Nat → Option (List (List FileMetaData))
  | [] => some []
  | l :: ls =>
    match buildLevel (base.levelFiles l) edit l, buildLevels edit base ls with
    | some fs, some rest => some (fs :: rest)
    | _, _ => none

/-- Modelled from the spec (§4.2 steps 2 and 3): produce the new Version by
applying the Builder for the edit to the current version.  Every Version a
`LogAndApply` or `Recover` installs is constructed here. -/
def buildVersion (base : VersionModel) (edit : VersionEdit) : Option VersionModel :=
  match buildLevels edit base (List.range kNumLevels) with
  | some lists =>
    some { files := lists, file_to_compact := none, file_to_compact_level := -1,
           compaction_score := -1, compaction_level := -1 }
  | none => none

/-- Total byte size of a file list. -/
def totalBytes (fs : List FileMetaData) : Nat :=
  (fs.map fun f => f.file_size).sum

/-- Modelled from the spec (§4.2 Finalize): byte budget of a level ≥ 1 —
10 MiB for level 1, growing tenfold per level. -/
def maxBytesForLevel (l : Nat) : ℚ :=
  10 * 1048576 * 10 ^ (l - 1)

/-- Modelled from the spec (§4.2 Finalize): pressure metric of one level —
file count over the soft trigger (4) at level 0, total bytes over the byte
budget at deeper levels. -/
def levelScore (v : VersionModel) (l : Nat) : ℚ :=
  if l = 0 then ((v.levelFiles 0).length : ℚ) / 4
  else (totalBytes (v.levelFiles l) : ℚ) / maxBytesForLevel l

/-- Modelled from the spec (§4.2 Finalize): best (level, score) pair over
the levels; the running best starts at (-1, -1) and is replaced only on a
strictly larger score, so the first maximizing level wins. -/
def finalizeHints (v : VersionModel) : Int × ℚ :=
  (List.range kNumLevels).foldl
    (fun best l =>
      if best.2 < levelScore v l then ((l : Int), levelScore v l) else best)
    (-1, -1)

/-- Modelled from the spec: `Finalize(v)` caches the compaction hints on the
version. -/
def Finalize (v : VersionModel) : VersionModel :=
  { v with compaction_level := (finalizeHints v).1,
           compaction_score := (finalizeHints v).2 }

/-- `VersionSet::NeedsCompaction()` from `db/version_set.h`:
`(v->compaction_score_ >= 1) || (v->file_to_compact_ != nullptr)` on the
current version. -/
def VersionSetState.NeedsCompaction (s : VersionSetState) : Bool :=
  decide (1 ≤ s.current.compaction_score) ||
    decide (s.current.file_to_compact ≠ none)

/-- User-key range overlap test of a file against `[lo, hi]`
(`AfterFile` / `BeforeFile` in the source, on user keys). -/
def overlapB (f : FileMetaData) (lo hi : Bytes) : Bool :=
  !decide (userOf f.largest < lo) && !decide (hi < userOf f.smallest)

/-- Union user-key range of a file list (meaningful for nonempty input). -/
def userRange (fs : List FileMetaData) : Bytes × Bytes :=
  match fs with
  | [] => ([], [])
  | f :: rest =>
    rest.foldl
      (fun r g =>
        (if userOf g.smallest < r.1 then userOf g.smallest else r.1,
         if r.2 < userOf g.largest then userOf g.largest else r.2))
      (userOf f.smallest, userOf f.largest)

/-- Modelled from the spec (§4.3): the expansive level-0 overlap scan —
whenever a selected file widens the range, restart with the widened range;
the fuel (number of level-0 files) bounds the restarts. -/
def getOverlapping0 : Nat → List FileMetaData → Bytes → Bytes → List FileMetaData
  | 0, files, lo, hi => files.filter fun f => overlapB f lo hi
  | fuel + 1, files, lo, hi =>
    let sel := files.filter fun f => overlapB f lo hi
    let lo' := sel.foldl
      (fun a f => if userOf f.smallest < a then userOf f.smallest else a) lo
    let hi' := sel.foldl
      (fun a f => if a < userOf f.largest then userOf f.largest else a) hi
    if lo' = lo ∧ hi' = hi then sel else getOverlapping0 fuel files lo' hi'

/-- Modelled from the spec (§4.3): `Version::GetOverlappingInputs` — every
file of the level whose user-key range intersects `[lo, hi]`; expansive at
level 0, a single pass at levels ≥ 1. -/
def VersionModel.GetOverlappingInputs (v : VersionModel) (l : Nat)
    (lo hi : Bytes) : List FileMetaData :=
  if l = 0 then getOverlapping0 (v.levelFiles 0).length (v.levelFiles 0) lo hi
  else (v.levelFiles l).filter fun f => overlapB f lo hi

/-- A selected compaction (`class Compaction`): source level, the two input
file vectors and the grandparent overlap list. -/
structure CompactionModel where
  level : Nat
  inputs0 : List FileMetaData
  inputs1 : List FileMetaData
  grandparents : List FileMetaData
deriving DecidableEq, Repr

/-- Target output file size (`options->max_file_size`, typically 2 MiB). -/
def kTargetFileSize : Nat := 2 * 1048576

/-- Modelled from the spec (§4.4): expanded-input size cap, 25 times the
target file size. -/
def kExpandedCompactionByteSizeLimit : Nat := 25 * kTargetFileSize

/-- Modelled from the spec (§4.4 SetupOtherInputs): fill `inputs1` with the
level+1 files overlapping the union range of `inputs0`; opportunistically
expand `inputs0` when that does not change `inputs1` and stays under the
size cap; record the grandparents overlapping the final range. -/
def setupOtherInputs (v : VersionModel) (level : Nat)
    (inputs0 : List FileMetaData) : CompactionModel :=
  let r := userRange inputs0
  let inputs1 := v.GetOverlappingInputs (level + 1) r.1 r.2
  let r2 := userRange (inputs0 ++ inputs1)
  let expanded0 := v.GetOverlappingInputs level r2.1 r2.2
  let inputs0' :=
    if inputs0.length < expanded0.length ∧
        totalBytes expanded0 + totalBytes inputs1 <
          kExpandedCompactionByteSizeLimit ∧
        (let r3 := userRange expanded0
         (v.GetOverlappingInputs (level + 1) r3.1 r3.2).length = inputs1.length)
    then expanded0 else inputs0
  let rg := userRange (inputs0' ++ inputs1)
  { level := level, inputs0 := inputs0', inputs1 := inputs1,
    grandparents := v.GetOverlappingInputs (level + 2) rg.1 rg.2 }

/-- Modelled from the spec (§4.4 step 1): the first file of the level whose
largest key lies past the level compact pointer, wrapping to the first file
when none does (an empty pointer accepts the first file). -/
def pickSizeInput (files : List FileMetaData) (ptr : Bytes) : List FileMetaData :=
  match files.find? (fun f => ptr.isEmpty || decide (keyLt ptr f.largest)) with
  | some f => [f]
  | none =>
    match files with
    | [] => []
    | f :: _ => [f]

/-- Modelled from the spec (§4.4): `VersionSet::PickCompaction`.  The
size-driven trigger (`compaction_score_ >= 1`) takes priority and compacts
`compaction_level_`; otherwise the seek-driven trigger compacts
`file_to_compact_` at its level; otherwise no compaction (`none`).  A
level-0 size seed is widened to every level-0 file overlapping its range.
(The source also rotates the level's compact pointer; the returned
descriptor alone decides the claims here.) -/
def VersionSetState.PickCompaction (s : VersionSetState) :
    Option CompactionModel :=
  let v := s.current
  if 1 ≤ v.compaction_score then
    let level := v.compaction_level.toNat
    let seed := pickSizeInput (v.levelFiles level) (s.compact_pointer.getD level [])
    let inputs0 :=
      if level = 0 then
        let r := userRange seed
        v.GetOverlappingInputs 0 r.1 r.2
      else seed
    some (setupOtherInputs v level inputs0)
  else
    match v.file_to_compact with
    | some f => some (setupOtherInputs v v.file_to_compact_level.toNat [f])
    | none => none

/-- Modelled from the spec (§4.2 step 1): fill the bookkeeping fields the
edit does not already carry from the `VersionSet` counters. -/
def fillFrom (s : VersionSetState) (e : VersionEdit) : VersionEdit :=
  let e1 := if e.has_log_number then e else e.SetLogNumber s.log_number
  let e2 := if e1.has_prev_log_number then e1
    else e1.SetPrevLogNumber s.prev_log_number
  let e3 := if e2.has_next_file_number then e2
    else e2.SetNextFile s.next_file_number
  if e3.has_last_sequence then e3 else e3.SetLastSequence s.last_sequence

/-- Outcome of `LogAndApply`. -/
inductive Status where
  | ok
  | ioError
deriving DecidableEq, Repr

/-- Modelled from the spec (§4.2 step 2): the Builder applies the edit's
compact pointers to the per-level resume pointers of the `VersionSet`
(before the manifest I/O; not rolled back on failure). -/
def applyCompactPointers (cp : List Bytes) (e : VersionEdit) : List Bytes :=
  e.compact_pointers.foldl (fun acc p => acc.set p.1 p.2) cp

/-- Modelled from the spec (§4.2): `VersionSet::LogAndApply`.  `manifest_ok`
injects the outcome of the manifest write, flush, fsync and CURRENT update.
The new version is built from the current one and the filled edit (`none`
models the Builder assertion tripping) and finalized; on I/O success it is
installed and the edit's log numbers are adopted; on I/O failure it is
discarded and the error returned, with the current version and the counters
exactly as before the call. -/
def VersionSetState.LogAndApply (s : VersionSetState) (edit : VersionEdit)
    (manifest_ok : Bool) : Option (Status × VersionSetState) :=
  let e := fillFrom s edit
  match buildVersion s.current e with
  | none => none
  | some v =>
    let v' := Finalize v
    let s1 := { s with compact_pointer := applyCompactPointers s.compact_pointer e }
    if manifest_ok then
      some (.ok,
        { s1 with current := v', log_number := e.log_number,
                  prev_log_number := e.prev_log_number, descriptor_open := true })
    else some (.ioError, s1)

/-- Modelled from the spec (§4.2 Recover): replay a recovered edit sequence
against a Builder seeded with an empty version. -/
def recoverReplay (edits : List VersionEdit) : Option VersionModel :=
  edits.foldlM (fun v e => buildVersion v e) VersionModel.init

/-- Invariant I1 of a level ≥ 1 file list: sorted by smallest internal key
with pairwise disjoint user-key ranges. -/
def levelInvariant (fs : List FileMetaData) : Prop :=
  List.Sorted fileLe fs ∧
    List.Pairwise (fun a b => userOf a.largest < userOf b.smallest) fs

/-- Concrete internal key (user byte 97, sequence 0, type 1). -/
def sampleKeyA : Bytes := [97, 0, 0, 0, 0, 0, 0, 0, 1]

/-- Concrete internal key (user byte 98, sequence 0, type 1). -/
def sampleKeyB : Bytes := [98, 0, 0, 0, 0, 0, 0, 0, 1]

/-- Concrete edit adding file 7 (1000 bytes, range A–B) at level 1. -/
def sampleAddEdit : VersionEdit :=
  VersionEdit.Clear.AddFile 1 7 1000 sampleKeyA sampleKeyB

/-- The level-1 file the Builder produces for `sampleAddEdit`. -/
def sampleFile : FileMetaData :=
  { refs := 1, allowed_seeks := 100, number := 7, file_size := 1000,
    smallest := sampleKeyA, largest := sampleKeyB }

/-- The version the Builder produces for `sampleAddEdit` over an empty
base. -/
def sampleVersion : VersionModel :=
  { files := [[], [sampleFile], [], [], [], [], []],
    file_to_compact := none, file_to_compact_level := -1,
    compaction_score := -1, compaction_level := -1 }

/-- Concrete `VersionSetState` used by the witnesses below. -/
def sampleVS : VersionSetState :=
  { next_file_number := 10, manifest_file_number := 1, last_sequence := 5,
    log_number := 0, prev_log_number := 0, current := VersionModel.init,
    compact_pointer := [], descriptor_open := false }

end LevelDB

namespace LevelDB

/-- C5 (corrected), counterexample: `AddFile` of a 1000000-byte file yields
`allowed_seeks = 2 ^ 30`, not the size-proportional value
`max (1000000 / 16384) 100 = 100` that the claim states. -/
theorem addFile_seek_budget_counterexample :
    ((VersionEdit.Clear.AddFile 0 7 1000000 [97] [99]).new_files.map
        (fun p => p.2.allowed_seeks)) = [2 ^ 30] ∧
      (2 ^ 30 : Int) ≠ max (1000000 / 16384) 100 := by
  constructor
  · rfl
  · decide

/-- C5 (amended): every file appended to a `VersionEdit` by `AddFile` has its
seek budget initialized to the fixed constant `1 << 30` (and `refs = 0`),
independent of the file's byte size; no size-proportional initialization
happens at this creation point. -/
theorem addFile_seek_budget_constant (e : VersionEdit)
    (level file file_size : Nat) (smallest largest : Bytes) :
    (e.AddFile level file file_size smallest largest).new_files =
      e.new_files ++
        [(level, { refs := 0, allowed_seeks := 2 ^ 30, number := file,
                   file_size := file_size, smallest := smallest,
                   largest := largest })] := by
  rfl

/-- Sequence of ids handed out by `k` consecutive `NewFileNumber` calls,
assuming the 64-bit counter does not wrap during them. -/
theorem allocFileNumbers_eq_range' (k : Nat) :
    ∀ s : VersionSetState, s.next_file_number + k ≤ 2 ^ 64 →
      (allocFileNumbers k s).1 = List.range' s.next_file_number k := by
  induction k with
  | zero => intro s _; rfl
  | succ k ih =>
    intro s h
    rcases Nat.lt_or_ge (s.next_file_number + 1) (2 ^ 64) with h1 | h1
    · have hmod : (s.next_file_number + 1) % 2 ^ 64 = s.next_file_number + 1 :=
        Nat.mod_eq_of_lt h1
      have hrec := ih { s with next_file_number := s.next_file_number + 1 }
        (show s.next_file_number + 1 + k ≤ 2 ^ 64 by omega)
      show s.next_file_number ::
          (allocFileNumbers k
            { s with next_file_number := (s.next_file_number + 1) % 2 ^ 64 }).1 =
        List.range' s.next_file_number (k + 1)
      rw [hmod, List.range'_succ]
      exact congrArg (List.cons s.next_file_number) hrec
    · have hk : k = 0 := by omega
      subst hk
      rfl

/-- C6 (confirmed): with no intervening `ReuseFileNumber` and no 64-bit
wraparound, consecutive `NewFileNumber` calls return
`next_file_number_, next_file_number_ + 1, ...` — a strictly increasing id
sequence — and each call returns the current counter and increments it. -/
theorem newFileNumber_strictly_increasing (s : VersionSetState) (k : Nat)
    (h : s.next_file_number + k ≤ 2 ^ 64) :
    (allocFileNumbers k s).1 = List.range' s.next_file_number k ∧
      (allocFileNumbers k s).1.Pairwise (fun a b => a < b) ∧
      (s.NewFileNumber.1 = s.next_file_number ∧
        s.NewFileNumber.2.next_file_number = (s.next_file_number + 1) % 2 ^ 64) := by
  refine ⟨allocFileNumbers_eq_range' k s h, ?_, rfl, rfl⟩
  rw [allocFileNumbers_eq_range' k s h]
  have : List.range' s.next_file_number k = (List.range k).map
      (fun i => s.next_file_number + i) := by
    rw [List.range'_eq_map_range]
  rw [this]
  exact (List.pairwise_lt_range k).map _ (fun a b hab => by omega)

/-- C6 witness: three allocations starting from a concrete state. -/
theorem newFileNumber_strictly_increasing_witness :
    (allocFileNumbers 3 sampleVS).1 = List.range' 10 3 :=
  (newFileNumber_strictly_increasing sampleVS 3 (by decide)).1

/-- C7 (confirmed): a `SetLastSequence(x)` call with `x ≥ LastSequence()`
passes the internal assertion and afterwards `LastSequence()` equals `x`;
moreover over any sequence of `SetLastSequence` calls whose assertions all
pass, the last-sequence counter never decreases. -/
theorem setLastSequence_spec (s : VersionSetState) (x : Nat)
    (h : s.LastSequence ≤ x) :
    s.SetLastSequence x = some { s with last_sequence := x } ∧
      (∀ s', s.SetLastSequence x = some s' → s'.LastSequence = x) ∧
      (∀ xs t t', applySetLastSequence xs t = some t' →
        t.LastSequence ≤ t'.LastSequence) := by
  refine ⟨?_, ?_, ?_⟩
  · simp [VersionSetState.SetLastSequence, VersionSetState.LastSequence] at h ⊢
    exact h
  · intro s' hs'
    simp only [VersionSetState.SetLastSequence] at hs'
    by_cases hc : s.last_sequence ≤ x
    · simp [hc] at hs'
      simp [← hs', VersionSetState.LastSequence]
    · simp [hc] at hs'
  · intro xs
    induction xs with
    | nil => intro t t' ht; simp [applySetLastSequence] at ht; simp [ht]
    | cons y ys ih =>
      intro t t' ht
      simp only [applySetLastSequence] at ht
      rcases hcall : t.SetLastSequence y with _ | t1
      · rw [hcall] at ht; exact absurd ht (by simp)
      · rw [hcall] at ht
        have h1 : t.LastSequence ≤ t1.LastSequence := by
          simp only [VersionSetState.SetLastSequence] at hcall
          by_cases hc : t.last_sequence ≤ y
          · simp [hc] at hcall
            simp [← hcall, VersionSetState.LastSequence]
            exact hc
          · simp [hc] at hcall
        exact le_trans h1 (ih t1 t' ht)

/-- C7 witness: concrete call raising the last sequence from 5 to 9. -/
theorem setLastSequence_spec_witness :
    sampleVS.SetLastSequence 9 = some { sampleVS with last_sequence := 9 } :=
  (setLastSequence_spec sampleVS 9 (by decide)).1

/-- C9 (confirmed): on the fast path (`0 < bytes ≤ alloc_bytes_remaining_`)
`Arena::Allocate` returns the current `alloc_ptr_`, advances it by exactly
`bytes` and shrinks `alloc_bytes_remaining_` by exactly `bytes` with no
underflow; `bytes = 0` trips the assertion; `bytes > alloc_bytes_remaining_`
is delegated to `AllocateFallback` with the fast-path state untouched. -/
theorem arena_allocate_spec (s : ArenaState) (bytes : Nat) (hpos : 0 < bytes) :
    (bytes ≤ s.alloc_bytes_remaining →
        Arena.Allocate bytes s = some (.fast s.alloc_ptr
          { alloc_ptr := s.alloc_ptr + bytes
            alloc_bytes_remaining := s.alloc_bytes_remaining - bytes }) ∧
          (s.alloc_bytes_remaining - bytes) + bytes = s.alloc_bytes_remaining) ∧
      Arena.Allocate 0 s = none ∧
      (s.alloc_bytes_remaining < bytes →
        Arena.Allocate bytes s = some (.fallback bytes s)) := by
  refine ⟨?_, by simp [Arena.Allocate], ?_⟩
  · intro hle
    constructor
    · simp [Arena.Allocate, Nat.pos_iff_ne_zero.mp hpos, hle]
    · omega
  · intro hgt
    have : ¬ bytes ≤ s.alloc_bytes_remaining := by omega
    simp [Arena.Allocate, Nat.pos_iff_ne_zero.mp hpos, this]

/-- C9 witness: allocating 24 bytes from a block with 100 remaining. -/
theorem arena_allocate_spec_witness :
    Arena.Allocate 24 { alloc_ptr := 1000, alloc_bytes_remaining := 100 } =
      some (.fast 1000 { alloc_ptr := 1024, alloc_bytes_remaining := 76 }) :=
  ((arena_allocate_spec { alloc_ptr := 1000, alloc_bytes_remaining := 100 } 24
    (by decide)).1 (by decide)).1

/-- C10 (confirmed): `ReuseFileNumber(n)` rolls `next_file_number_` back to
`n` exactly when `next_file_number_ = n + 1` (in 64-bit arithmetic) and
leaves the state completely unchanged otherwise; consequently
`NewFileNumber` immediately followed by `ReuseFileNumber` of its result
restores the original state. -/
theorem reuseFileNumber_spec (s : VersionSetState) (n : Nat) :
    (s.next_file_number = (n + 1) % 2 ^ 64 →
        (s.ReuseFileNumber n).next_file_number = n) ∧
      (s.next_file_number ≠ (n + 1) % 2 ^ 64 → s.ReuseFileNumber n = s) ∧
      (∀ t : VersionSetState, t.NewFileNumber.2.ReuseFileNumber t.NewFileNumber.1 = t) := by
  refine ⟨?_, ?_, ?_⟩
  · intro h
    unfold VersionSetState.ReuseFileNumber
    rw [if_pos h]
  · intro h
    unfold VersionSetState.ReuseFileNumber
    rw [if_neg h]
  · intro t
    simp [VersionSetState.NewFileNumber, VersionSetState.ReuseFileNumber]

/-- C10 witness: rolling back a freshly allocated id 9 on a counter at 10. -/
theorem reuseFileNumber_spec_witness :
    (sampleVS.ReuseFileNumber 9).next_file_number = 9 :=
  (reuseFileNumber_spec sampleVS 9).1 (by decide)

/-- Varint helper: a value below 128 encodes as its single byte at any fuel. -/
theorem putVarintAux_small {fuel n : Nat} (h : n < 128) :
    putVarintAux fuel n = [n] := by
  cases fuel with
  | zero => simp [putVarintAux, Nat.mod_eq_of_lt h]
  | succ fuel => simp [putVarintAux, h]

/-- Varint helper: with positive fuel, a value of at least 128 encodes as a
continuation byte followed by the encoding of its quotient. -/
theorem putVarintAux_large {fuel n : Nat} (h : 128 ≤ n) :
    putVarintAux (fuel + 1) n = (n % 128 + 128) :: putVarintAux fuel (n / 128) := by
  show (if n < 128 then [n] else (n % 128 + 128) :: putVarintAux fuel (n / 128)) = _
  rw [if_neg (by omega)]

/-- Varint encodings are never empty. -/
theorem putVarintAux_length_pos (fuel n : Nat) : 1 ≤ (putVarintAux fuel n).length := by
  cases fuel with
  | zero => simp [putVarintAux]
  | succ fuel =>
    unfold putVarintAux
    split <;> simp

/-- Varint encodings are never empty (canonical form). -/
theorem putVarint_length_pos (n : Nat) : 1 ≤ (putVarint n).length :=
  putVarintAux_length_pos n n

/-- Round trip of the varint decoding loop over an encoded value followed by
arbitrary trailing bytes, generalized over the running shift and
accumulator. -/
theorem getVarintLoop_putVarintAux (n : Nat) :
    ∀ pf fuel shift acc rest, n ≤ pf → (putVarintAux pf n).length ≤ fuel →
      getVarintLoop fuel shift acc (putVarintAux pf n ++ rest) =
        some (acc + n * 2 ^ shift, rest) := by
  induction n using Nat.strong_induction_on with
  | _ n ih =>
    intro pf fuel shift acc rest hpf hfuel
    by_cases hn : n < 128
    · rw [putVarintAux_small hn] at hfuel ⊢
      cases fuel with
      | zero => simp at hfuel
      | succ fuel => simp [getVarintLoop, hn]
    · push_neg at hn
      cases pf with
      | zero => omega
      | succ pf =>
        rw [putVarintAux_large hn] at hfuel ⊢
        cases fuel with
        | zero => simp at hfuel
        | succ fuel =>
          have hfuel' : (putVarintAux pf (n / 128)).length ≤ fuel := by
            simp only [List.length_cons] at hfuel
            omega
          have hdiv : n / 128 < n := Nat.div_lt_self (by omega) (by omega)
          have hb : ¬ (n % 128 + 128 < 128) := by omega
          have hmod : (n % 128 + 128) % 128 = n % 128 := by omega
          simp only [List.cons_append, getVarintLoop, hb, if_false, List.append_eq]
          rw [hmod, ih (n / 128) hdiv pf fuel (shift + 7)
            (acc + n % 128 * 2 ^ shift) rest (by omega) hfuel']
          have harith : acc + n % 128 * 2 ^ shift + n / 128 * 2 ^ (shift + 7) =
              acc + n * 2 ^ shift := by
            have hpow : (2 : Nat) ^ (shift + 7) = 2 ^ shift * 128 := by
              rw [pow_add]; norm_num
            rw [hpow]
            have hfactor : n % 128 * 2 ^ shift + n / 128 * (2 ^ shift * 128) =
                (n % 128 + 128 * (n / 128)) * 2 ^ shift := by ring
            have hsplit : n % 128 + 128 * (n / 128) = n := by omega
            rw [Nat.add_assoc, hfactor, hsplit]
          rw [harith]

/-- Length bound for varint encodings: a value below `128 ^ k` takes at most
`k` bytes. -/
theorem putVarintAux_length_le (k : Nat) :
    ∀ n pf, 0 < k → n ≤ pf → n < 128 ^ k → (putVarintAux pf n).length ≤ k := by
  induction k with
  | zero => intro n pf h _ _; omega
  | succ k ih =>
    intro n pf _ hpf hlt
    by_cases hn : n < 128
    · rw [putVarintAux_small hn]; simp
    · push_neg at hn
      cases pf with
      | zero => omega
      | succ pf =>
        have hk : 0 < k := by
          rcases Nat.eq_zero_or_pos k with hk0 | hk0
          · subst hk0
            have : n < 128 := by simpa using hlt
            omega
          · exact hk0
        rw [putVarintAux_large hn]
        simp only [List.length_cons]
        have hdivlt : n / 128 < 128 ^ k := by
          rw [Nat.div_lt_iff_lt_mul (by norm_num)]
          calc n < 128 ^ (k + 1) := hlt
            _ = 128 ^ k * 128 := by rw [pow_succ]
        have hdivpf : n / 128 ≤ pf := by
          have := Nat.div_lt_self (show 0 < n by omega) (show 1 < 128 by norm_num)
          omega
        have := ih (n / 128) pf hk hdivpf hdivlt
        omega

/-- `GetVarint64` round trip for any value fitting in 64 bits. -/
theorem getVarint64_putVarint {n : Nat} (h : n < 2 ^ 64) (rest : Bytes) :
    getVarint64 (putVarint n ++ rest) = some (n, rest) := by
  have hlen : (putVarintAux n n).length ≤ 10 := by
    apply putVarintAux_length_le 10 n n (by norm_num) le_rfl
    calc n < 2 ^ 64 := h
      _ < 128 ^ 10 := by norm_num
  have := getVarintLoop_putVarintAux n n 10 0 0 rest le_rfl hlen
  simpa [getVarint64, putVarint] using this

/-- `GetVarint32` round trip for any value fitting in 32 bits. -/
theorem getVarint32_putVarint {n : Nat} (h : n < 2 ^ 32) (rest : Bytes) :
    getVarint32 (putVarint n ++ rest) = some (n, rest) := by
  have hlen : (putVarintAux n n).length ≤ 5 := by
    apply putVarintAux_length_le 5 n n (by norm_num) le_rfl
    calc n < 2 ^ 32 := h
      _ < 128 ^ 5 := by norm_num
  have := getVarintLoop_putVarintAux n n 5 0 0 rest le_rfl hlen
  simpa [getVarint32, putVarint] using this

/-- Single-byte varint read (used for the record tags, which are below 128). -/
theorem getVarint32_cons_small {b : Nat} (hb : b < 128) (rest : Bytes) :
    getVarint32 (b :: rest) = some (b, rest) := by
  simp [getVarint32, getVarintLoop, hb]

/-- `GetLengthPrefixedSlice` round trip. -/
theorem getSlice_putSlice {s : Bytes} (h : s.length < 2 ^ 32) (rest : Bytes) :
    getSlice (putSlice s ++ rest) = some (s, rest) := by
  unfold putSlice getSlice
  rw [List.append_assoc, getVarint32_putVarint h]
  have hle : s.length ≤ (s ++ rest).length := by simp
  simp [hle, List.take_left, List.drop_left]

/-- Level read round trip for a valid level. -/
theorem getLevel_putVarint {level : Nat} (h : level < kNumLevels) (rest : Bytes) :
    getLevel (putVarint level ++ rest) = some (level, rest) := by
  unfold getLevel
  rw [getVarint32_putVarint (by unfold kNumLevels at h; omega)]
  simp [h]

/-- Decoding one encoded record consumes exactly its bytes, burns one unit of
loop fuel and applies the record's mutator to the edit being rebuilt. -/
theorem decodeRecs_step (r : ERec) (hr : wfRec r) (fuel : Nat) (rest : Bytes)
    (e : VersionEdit) :
    decodeRecs (fuel + 1) (encRec r ++ rest) e = decodeRecs fuel rest (applyRec e r) := by
  cases r with
  | comp s =>
    simp only [encRec, applyRec, List.append_assoc,
      show putVarint kComparator = [kComparator] from rfl, List.singleton_append,
      decodeRecs, getVarint32_cons_small (show kComparator < 128 by norm_num [kComparator]),
      getSlice_putSlice hr]
    norm_num [kComparator]
    simp [getSlice_putSlice hr]
  | log n =>
    simp only [encRec, applyRec, List.append_assoc,
      show putVarint kLogNumber = [kLogNumber] from rfl, List.singleton_append,
      decodeRecs, getVarint32_cons_small (show kLogNumber < 128 by norm_num [kLogNumber]),
      getVarint64_putVarint hr]
    norm_num [kComparator, kLogNumber]
    simp [getVarint64_putVarint hr]
  | prev n =>
    simp only [encRec, applyRec, List.append_assoc,
      show putVarint kPrevLogNumber = [kPrevLogNumber] from rfl, List.singleton_append,
      decodeRecs,
      getVarint32_cons_small (show kPrevLogNumber < 128 by norm_num [kPrevLogNumber]),
      getVarint64_putVarint hr]
    norm_num [kComparator, kLogNumber, kPrevLogNumber]
    simp [getVarint64_putVarint hr]
  | next n =>
    simp only [encRec, applyRec, List.append_assoc,
      show putVarint kNextFileNumber = [kNextFileNumber] from rfl, List.singleton_append,
      decodeRecs,
      getVarint32_cons_small (show kNextFileNumber < 128 by norm_num [kNextFileNumber]),
      getVarint64_putVarint hr]
    norm_num [kComparator, kLogNumber, kPrevLogNumber, kNextFileNumber]
    simp [getVarint64_putVarint hr]
  | last n =>
    simp only [encRec, applyRec, List.append_assoc,
      show putVarint kLastSequence = [kLastSequence] from rfl, List.singleton_append,
      decodeRecs,
      getVarint32_cons_small (show kLastSequence < 128 by norm_num [kLastSequence]),
      getVarint64_putVarint hr]
    norm_num [kComparator, kLogNumber, kPrevLogNumber, kNextFileNumber, kLastSequence]
    simp [getVarint64_putVarint hr]
  | cp level key =>
    simp only [encRec, applyRec, List.append_assoc,
      show putVarint kCompactPointer = [kCompactPointer] from rfl, List.singleton_append,
      decodeRecs,
      getVarint32_cons_small (show kCompactPointer < 128 by norm_num [kCompactPointer]),
      getLevel_putVarint hr.1, getSlice_putSlice hr.2]
    norm_num [kComparator, kLogNumber, kPrevLogNumber, kNextFileNumber, kLastSequence,
      kCompactPointer]
    simp [getLevel_putVarint hr.1, getSlice_putSlice hr.2]
  | del level number =>
    simp only [encRec, applyRec, List.append_assoc,
      show putVarint kDeletedFile = [kDeletedFile] from rfl, List.singleton_append,
      decodeRecs,
      getVarint32_cons_small (show kDeletedFile < 128 by norm_num [kDeletedFile]),
      getLevel_putVarint hr.1, getVarint64_putVarint hr.2]
    norm_num [kComparator, kLogNumber, kPrevLogNumber, kNextFileNumber, kLastSequence,
      kCompactPointer, kDeletedFile]
    simp [getLevel_putVarint hr.1, getVarint64_putVarint hr.2]
  | nf level f =>
    simp only [encRec, applyRec, List.append_assoc,
      show putVarint kNewFile = [kNewFile] from rfl, List.singleton_append,
      decodeRecs,
      getVarint32_cons_small (show kNewFile < 128 by norm_num [kNewFile]),
      getLevel_putVarint hr.1, getVarint64_putVarint hr.2.1,
      getVarint64_putVarint hr.2.2.1, getSlice_putSlice hr.2.2.2.1,
      getSlice_putSlice hr.2.2.2.2]
    norm_num [kComparator, kLogNumber, kPrevLogNumber, kNextFileNumber, kLastSequence,
      kCompactPointer, kDeletedFile, kNewFile]
    simp [getLevel_putVarint hr.1, getVarint64_putVarint hr.2.1,
      getVarint64_putVarint hr.2.2.1, getSlice_putSlice hr.2.2.2.1,
      getSlice_putSlice hr.2.2.2.2]

/-- Decoding the concatenation of well-formed encoded records folds their
mutators over the edit, provided the fuel covers the record count. -/
theorem decodeRecs_fold (recs : List ERec) :
    ∀ fuel e, (∀ r ∈ recs, wfRec r) → recs.length ≤ fuel →
      decodeRecs fuel ((recs.map encRec).flatten) e =
        some (recs.foldl applyRec e) := by
  induction recs with
  | nil => intro fuel e _ _; simp [decodeRecs]
  | cons r rs ih =>
    intro fuel e hwf hlen
    cases fuel with
    | zero => simp at hlen
    | succ fuel =>
      simp only [List.map_cons, List.flatten_cons]
      rw [decodeRecs_step r (hwf r (by simp)) fuel _ e]
      exact ih fuel (applyRec e r) (fun x hx => hwf x (by simp [hx]))
        (by simp only [List.length_cons] at hlen; omega)

/-- Every encoded record is at least one byte long (its tag). -/
theorem encRec_length_pos (r : ERec) : 1 ≤ (encRec r).length := by
  have h1 := putVarint_length_pos kComparator
  have h2 := putVarint_length_pos kLogNumber
  have h3 := putVarint_length_pos kPrevLogNumber
  have h4 := putVarint_length_pos kNextFileNumber
  have h5 := putVarint_length_pos kLastSequence
  have h6 := putVarint_length_pos kCompactPointer
  have h7 := putVarint_length_pos kDeletedFile
  have h8 := putVarint_length_pos kNewFile
  cases r <;> simp only [encRec, List.length_append] <;> omega

/-- The byte length of an encoding dominates its record count, so the input
length is always enough fuel for the decoder. -/
theorem length_le_flatten (recs : List ERec) :
    recs.length ≤ ((recs.map encRec).flatten).length := by
  induction recs with
  | nil => simp
  | cons r rs ih =>
    simp only [List.map_cons, List.flatten_cons, List.length_append,
      List.length_cons]
    have := encRec_length_pos r
    omega

/-- Every record emitted for a well-formed edit is well formed. -/
theorem recsOf_wf (e : VersionEdit) (hwf : WFEdit e) : ∀ r ∈ recsOf e, wfRec r := by
  obtain ⟨-, -, -, -, -, hc, hl, hp, hn, hs, hcp, hdel, -, hnf⟩ := hwf
  intro r hr
  simp only [recsOf, List.mem_append] at hr
  rcases hr with (((((((hr | hr) | hr) | hr) | hr) | hr) | hr) | hr)
  · split at hr
    · simp only [List.mem_singleton] at hr; subst hr; exact hc
    · simp at hr
  · split at hr
    · simp only [List.mem_singleton] at hr; subst hr; exact hl
    · simp at hr
  · split at hr
    · simp only [List.mem_singleton] at hr; subst hr; exact hp
    · simp at hr
  · split at hr
    · simp only [List.mem_singleton] at hr; subst hr; exact hn
    · simp at hr
  · split at hr
    · simp only [List.mem_singleton] at hr; subst hr; exact hs
    · simp at hr
  · obtain ⟨p, hp', rfl⟩ := List.mem_map.mp hr
    exact hcp p hp'
  · obtain ⟨p, hp', rfl⟩ := List.mem_map.mp hr
    exact hdel p hp'
  · obtain ⟨p, hp', rfl⟩ := List.mem_map.mp hr
    have h := hnf p hp'
    exact ⟨h.1, h.2.2.2.1, h.2.2.2.2.1, h.2.2.2.2.2.1, h.2.2.2.2.2.2⟩

/-- Transitivity of the pair order used by the deleted-file set. -/
theorem pairLt_trans {a b c : Nat × Nat} (h1 : pairLt a b = true)
    (h2 : pairLt b c = true) : pairLt a c = true := by
  simp only [pairLt, Bool.or_eq_true, Bool.and_eq_true, decide_eq_true_eq] at h1 h2 ⊢
  omega

/-- Inserting an element above everything in a sorted list appends it. -/
theorem setInsert_append (p : Nat × Nat) (l : List (Nat × Nat))
    (h : ∀ q ∈ l, pairLt q p = true) : setInsert p l = l ++ [p] := by
  induction l with
  | nil => rfl
  | cons q rest ih =>
    have hq := h q (by simp)
    have h1 : pairLt p q = false := by
      cases hpq : pairLt p q with
      | false => rfl
      | true =>
        exfalso
        simp only [pairLt, Bool.or_eq_true, Bool.and_eq_true,
          decide_eq_true_eq] at hq hpq
        omega
    have h2 : p ≠ q := by
      intro heq
      subst heq
      simp only [pairLt, Bool.or_eq_true, Bool.and_eq_true, decide_eq_true_eq] at hq
      omega
    simp only [setInsert, h1, Bool.false_eq_true, if_false, if_neg h2]
    rw [ih (fun x hx => h x (List.mem_cons_of_mem q hx))]
    simp

/-- Folding the compact-pointer records appends them in order. -/
theorem foldl_applyRec_cp (L : List (Nat × Bytes)) :
    ∀ e0 : VersionEdit,
      List.foldl applyRec e0 (L.map fun p => ERec.cp p.1 p.2) =
        { e0 with compact_pointers := e0.compact_pointers ++ L } := by
  induction L with
  | nil => intro e0; simp
  | cons p L ih =>
    intro e0
    simp only [List.map_cons, List.foldl_cons, applyRec,
      VersionEdit.SetCompactPointer]
    rw [ih]
    simp

/-- Folding the deleted-file records of a sorted record list rebuilds the
sorted set element sequence by successive end insertions. -/
theorem foldl_applyRec_del (L : List (Nat × Nat)) :
    ∀ e0 : VersionEdit, (∀ p ∈ L, ∀ q ∈ e0.deleted_files, pairLt q p = true) →
      List.Pairwise (fun a b => pairLt a b = true) L →
      List.foldl applyRec e0 (L.map fun p => ERec.del p.1 p.2) =
        { e0 with deleted_files := e0.deleted_files ++ L } := by
  induction L with
  | nil => intro e0 _ _; simp
  | cons p L ih =>
    intro e0 hsep hpw
    simp only [List.map_cons, List.foldl_cons, applyRec, VersionEdit.DeleteFile]
    have hins : setInsert (p.1, p.2) e0.deleted_files = e0.deleted_files ++ [p] :=
      setInsert_append p e0.deleted_files (fun q hq => hsep p (by simp) q hq)
    rw [hins]
    rw [ih { e0 with deleted_files := e0.deleted_files ++ [p] } ?hsep ?hpw]
    · simp
    case hsep =>
      intro x hx q hq
      simp only [List.mem_append, List.mem_singleton] at hq
      rcases hq with hq | hq
      · exact hsep x (by simp [hx]) q hq
      · subst hq
        exact (List.pairwise_cons.mp hpw).1 x hx
    case hpw => exact (List.pairwise_cons.mp hpw).2

/-- Folding the new-file records appends them, reconstructing each
`FileMetaData` exactly when it carries the constructor defaults. -/
theorem foldl_applyRec_nf (L : List (Nat × FileMetaData)) :
    ∀ e0 : VersionEdit, (∀ p ∈ L, p.2.refs = 0 ∧ p.2.allowed_seeks = 2 ^ 30) →
      List.foldl applyRec e0 (L.map fun p => ERec.nf p.1 p.2) =
        { e0 with new_files := e0.new_files ++ L } := by
  induction L with
  | nil => intro e0 _; simp
  | cons p L ih =>
    intro e0 h
    obtain ⟨lvl, f⟩ := p
    have h2 := h (lvl, f) (by simp)
    simp only [List.map_cons, List.foldl_cons, applyRec, VersionEdit.AddFile]
    have hfile :
        ({ FileMetaData.init with
            number := f.number, file_size := f.file_size,
            smallest := f.smallest, largest := f.largest } : FileMetaData) = f := by
      obtain ⟨r, a, num, sz, sm, lg⟩ := f
      simp only at h2
      simp [FileMetaData.init, h2.1, h2.2]
    rw [hfile, ih _ (fun q hq => h q (by simp [hq]))]
    simp

/-- Folding all records of a well-formed edit over a cleared edit rebuilds
the edit exactly. -/
theorem foldl_recsOf (e : VersionEdit) (hwf : WFEdit e) :
    List.foldl applyRec VersionEdit.Clear (recsOf e) = e := by
  obtain ⟨hcd, hld, hpd, hnd, hsd, -, -, -, -, -, -, -, hsorted, hnf⟩ := hwf
  have hpw : List.Pairwise (fun a b => pairLt a b = true) e.deleted_files := by
    haveI : IsTrans (Nat × Nat) (fun a b => pairLt a b = true) :=
      ⟨fun _ _ _ => pairLt_trans⟩
    exact List.chain'_iff_pairwise.mp hsorted
  have hnffold : ∀ e0 : VersionEdit,
      List.foldl applyRec e0 (e.new_files.map fun p => ERec.nf p.1 p.2) =
        { e0 with new_files := e0.new_files ++ e.new_files } :=
    fun e0 => foldl_applyRec_nf e.new_files e0
      (fun p hp => ⟨(hnf p hp).2.1, (hnf p hp).2.2.1⟩)
  rcases e with ⟨c, ln, pln, nfn, ls, b1, b2, b3, b4, b5, cps, dels, nfs⟩
  simp only at hcd hld hpd hnd hsd hpw hnffold
  cases b1 <;> cases b2 <;> cases b3 <;> cases b4 <;> cases b5 <;>
    simp_all [recsOf, List.foldl_append, foldl_applyRec_cp, foldl_applyRec_del,
      hnffold, applyRec, VersionEdit.Clear,
      VersionEdit.SetComparatorName, VersionEdit.SetLogNumber,
      VersionEdit.SetPrevLogNumber, VersionEdit.SetNextFile,
      VersionEdit.SetLastSequence]

/-- C3 (confirmed): decoding the encoding of any well-formed `VersionEdit`
succeeds and returns an equal edit — same optional fields with the same
has-value flags, same `compact_pointers`, `deleted_files` and `new_files`
collections. -/
theorem versionEdit_encode_decode_roundtrip (e : VersionEdit) (hwf : WFEdit e) :
    VersionEdit.DecodeFrom e.EncodeTo = some e := by
  unfold VersionEdit.DecodeFrom VersionEdit.EncodeTo
  rw [decodeRecs_fold (recsOf e) _ _ (recsOf_wf e hwf) (length_le_flatten (recsOf e))]
  rw [foldl_recsOf e hwf]

/-- C3 witness: a concrete edit carrying every record kind round-trips. -/
theorem versionEdit_encode_decode_roundtrip_witness :
    VersionEdit.DecodeFrom sampleEdit.EncodeTo = some sampleEdit :=
  versionEdit_encode_decode_roundtrip sampleEdit (by
    unfold WFEdit sampleEdit
    norm_num [VersionEdit.Clear, VersionEdit.SetComparatorName,
      VersionEdit.SetLogNumber, VersionEdit.AddFile, VersionEdit.DeleteFile,
      VersionEdit.SetCompactPointer, setInsert, pairLt, kNumLevels,
      FileMetaData.init, List.chain'_singleton])

/-- C1 (confirmed): when the manifest I/O inside `LogAndApply` fails, the
call returns the error and the new version is discarded without being
installed — the `VersionSet`'s current version and all its counters are
exactly what they were before the call. -/
theorem logAndApply_manifest_error_preserves_state (s : VersionSetState)
    (edit : VersionEdit) (st : Status) (s' : VersionSetState)
    (h : s.LogAndApply edit false = some (st, s')) :
    st = Status.ioError ∧ s'.current = s.current ∧
      s'.next_file_number = s.next_file_number ∧
      s'.manifest_file_number = s.manifest_file_number ∧
      s'.last_sequence = s.last_sequence ∧
      s'.log_number = s.log_number ∧
      s'.prev_log_number = s.prev_log_number := by
  simp only [VersionSetState.LogAndApply] at h
  rcases hb : buildVersion s.current (fillFrom s edit) with _ | v
  · rw [hb] at h
    simp at h
  · rw [hb] at h
    simp only [Bool.false_eq_true, if_false, Option.some.injEq, Prod.mk.injEq] at h
    obtain ⟨h1, h2⟩ := h
    subst h1
    subst h2
    exact ⟨rfl, rfl, rfl, rfl, rfl, rfl, rfl⟩

/-- C1 witness: a failed manifest write for an empty edit over the sample
state leaves it untouched. -/
theorem logAndApply_manifest_error_preserves_state_witness :
    Status.ioError = Status.ioError ∧ sampleVS.current = sampleVS.current ∧
      sampleVS.next_file_number = sampleVS.next_file_number ∧
      sampleVS.manifest_file_number = sampleVS.manifest_file_number ∧
      sampleVS.last_sequence = sampleVS.last_sequence ∧
      sampleVS.log_number = sampleVS.log_number ∧
      sampleVS.prev_log_number = sampleVS.prev_log_number :=
  logAndApply_manifest_error_preserves_state sampleVS VersionEdit.Clear
    Status.ioError sampleVS (by rfl)

/-- C4 (confirmed): `PickCompaction` returns none exactly when the current
version's `compaction_score_` is below 1 and no `file_to_compact_` is set —
equivalently, exactly when `NeedsCompaction()` is false. -/
theorem pickCompaction_none_iff (s : VersionSetState) :
    (s.PickCompaction = none ↔
        s.current.compaction_score < 1 ∧ s.current.file_to_compact = none) ∧
      (s.PickCompaction = none ↔ s.NeedsCompaction = false) := by
  have hmain : s.PickCompaction = none ↔
      s.current.compaction_score < 1 ∧ s.current.file_to_compact = none := by
    unfold VersionSetState.PickCompaction
    by_cases hs : 1 ≤ s.current.compaction_score
    · rw [if_pos hs]
      simp [not_lt.mpr hs]
    · rw [if_neg hs]
      push_neg at hs
      cases hf : s.current.file_to_compact with
      | none => simp [hs]
      | some f => simp [hs]
  refine ⟨hmain, hmain.trans ?_⟩
  unfold VersionSetState.NeedsCompaction
  simp only [Bool.or_eq_false_iff, decide_eq_false_iff_not, not_le, ne_eq,
    not_not]

/-- A consecutive-disjointness chain over well-formed files gives pairwise
disjointness, because each file's range is nonempty. -/
theorem chain_disjoint_pairwise :
    ∀ l : List FileMetaData, (∀ f ∈ l, wfFile f) →
      List.Chain' (fun a b => userOf a.largest < userOf b.smallest) l →
      List.Pairwise (fun a b => userOf a.largest < userOf b.smallest) l := by
  intro l
  induction l with
  | nil => intro _ _; exact List.Pairwise.nil
  | cons a l ih =>
    intro hwf hch
    rw [List.chain'_cons'] at hch
    obtain ⟨hhead, htail⟩ := hch
    have hpl := ih (fun f hf => hwf f (by simp [hf])) htail
    rw [List.pairwise_cons]
    refine ⟨?_, hpl⟩
    intro b hb
    cases l with
    | nil => simp at hb
    | cons c l' =>
      have hac : userOf a.largest < userOf c.smallest := hhead c rfl
      rcases List.mem_cons.mp hb with rfl | hb'
      · exact hac
      · have hcb : userOf c.largest < userOf b.smallest :=
          (List.pairwise_cons.mp hpl).1 b hb'
        have hcwf : userOf c.smallest ≤ userOf c.largest := hwf c (by simp)
        calc userOf a.largest < userOf c.smallest := hac
          _ ≤ userOf c.largest := hcwf
          _ < userOf b.smallest := hcb

/-- Every file of a built level comes from the base list or is an adopted
file of the edit. -/
theorem mem_of_buildLevel {base : List FileMetaData} {edit : VersionEdit}
    {l : Nat} {fs : List FileMetaData} (h : buildLevel base edit l = some fs)
    {f : FileMetaData} (hf : f ∈ fs) :
    f ∈ base ∨ ∃ p ∈ edit.new_files, f = adoptFile p.2 := by
  simp only [buildLevel] at h
  have hsrc : ∀ (r : FileMetaData → FileMetaData → Prop) (inst : DecidableRel r),
      f ∈ List.insertionSort r
          ((base.filter fun g => !(edit.deleted_files.contains (l, g.number))) ++
            ((edit.new_files.filter fun p => decide (p.1 = l)).map
              fun p => adoptFile p.2)) →
      f ∈ base ∨ ∃ p ∈ edit.new_files, f = adoptFile p.2 := by
    intro r inst hmem
    rw [(List.perm_insertionSort r _).mem_iff, List.mem_append] at hmem
    rcases hmem with hmem | hmem
    · exact Or.inl (List.mem_of_mem_filter hmem)
    · obtain ⟨p, hp, rfl⟩ := List.mem_map.mp hmem
      exact Or.inr ⟨p, List.mem_of_mem_filter hp, rfl⟩
  split at h
  · simp only [Option.some.injEq] at h
    subst h
    exact hsrc level0Le _ hf
  · split at h
    · simp only [Option.some.injEq] at h
      subst h
      exact hsrc fileLe _ hf
    · exact absurd h (by simp)

/-- The executable disjointness check implies the consecutive chain. -/
theorem disjointChainB_chain' :
    ∀ l : List FileMetaData, disjointChainB l = true →
      List.Chain' (fun a b => userOf a.largest < userOf b.smallest) l
  | [], _ => List.chain'_nil
  | [_], _ => List.chain'_singleton _
  | a :: b :: rest, h => by
    simp only [disjointChainB, Bool.and_eq_true, decide_eq_true_eq] at h
    exact List.chain'_cons.mpr ⟨h.1, disjointChainB_chain' (b :: rest) h.2⟩

/-- A built level at depth ≥ 1 satisfies invariant I1 whenever its files are
well formed. -/
theorem buildLevel_invariant {base : List FileMetaData} {edit : VersionEdit}
    {l : Nat} {fs : List FileMetaData} (h : buildLevel base edit l = some fs)
    (hl : 1 ≤ l) (hwf : ∀ f ∈ fs, wfFile f) : levelInvariant fs := by
  simp only [buildLevel] at h
  rw [if_neg (by omega : ¬ l = 0)] at h
  split at h
  · rename_i hch
    simp only [Option.some.injEq] at h
    subst h
    exact ⟨List.sorted_insertionSort fileLe _,
      chain_disjoint_pairwise _ hwf (disjointChainB_chain' _ hch)⟩
  · exact absurd h (by simp)

/-- Shape of a successful `buildLevels` run: one output list per requested
level, each produced by `buildLevel` for that level. -/
theorem buildLevels_get (edit : VersionEdit) (base : VersionModel) :
    ∀ (ls : List Nat) (out : List (List FileMetaData)),
      buildLevels edit base ls = some out →
      out.length = ls.length ∧
        ∀ i (hi : i < ls.length),
          buildLevel (base.levelFiles (ls.get ⟨i, hi⟩)) edit (ls.get ⟨i, hi⟩) =
            some (out.getD i []) := by
  intro ls
  induction ls with
  | nil =>
    intro out h
    simp only [buildLevels, Option.some.injEq] at h
    subst h
    exact ⟨rfl, fun i hi => absurd hi (by simp)⟩
  | cons l ls ih =>
    intro out h
    simp only [buildLevels] at h
    rcases h1 : buildLevel (base.levelFiles l) edit l with _ | fs
    · rw [h1] at h; simp at h
    · rw [h1] at h
      rcases h2 : buildLevels edit base ls with _ | rest
      · rw [h2] at h; simp at h
      · rw [h2] at h
        simp only [Option.some.injEq] at h
        subst h
        obtain ⟨hlen, hget⟩ := ih rest h2
        refine ⟨by simp [hlen], ?_⟩
        intro i hi
        cases i with
        | zero => simpa using h1
        | succ i =>
          have hi' : i < ls.length := by simpa using hi
          simpa using hget i hi'

/-- A successfully built version has exactly `kNumLevels` level lists. -/
theorem buildVersion_files_length {base : VersionModel} {edit : VersionEdit}
    {v : VersionModel} (h : buildVersion base edit = some v) :
    v.files.length = kNumLevels := by
  simp only [buildVersion] at h
  rcases hb : buildLevels edit base (List.range kNumLevels) with _ | lists
  · rw [hb] at h; simp at h
  · rw [hb] at h
    simp only [Option.some.injEq] at h
    subst h
    have := (buildLevels_get edit base _ lists hb).1
    simpa using this

/-- Each level of a successfully built version is the output of the
level builder for that level. -/
theorem buildVersion_levelFiles {base : VersionModel} {edit : VersionEdit}
    {v : VersionModel} (h : buildVersion base edit = some v)
    (l : Nat) (hl : l < kNumLevels) :
    buildLevel (base.levelFiles l) edit l = some (v.levelFiles l) := by
  simp only [buildVersion] at h
  rcases hb : buildLevels edit base (List.range kNumLevels) with _ | lists
  · rw [hb] at h; simp at h
  · rw [hb] at h
    simp only [Option.some.injEq] at h
    subst h
    obtain ⟨hlen, hget⟩ := buildLevels_get edit base _ lists hb
    have hlr : l < (List.range kNumLevels).length := by simpa using hl
    have := hget l hlr
    rw [List.get_eq_getElem, List.getElem_range] at this
    simpa [VersionModel.levelFiles] using this

/-- Well-formedness of files is preserved by the Builder. -/
theorem buildVersion_wf {base : VersionModel} {edit : VersionEdit}
    {v : VersionModel} (h : buildVersion base edit = some v)
    (hb : wfVersionFiles base) (he : wfEditFiles edit) : wfVersionFiles v := by
  intro l f hf
  by_cases hl : l < kNumLevels
  · rcases mem_of_buildLevel (buildVersion_levelFiles h l hl) hf with hmem | ⟨p, hp, rfl⟩
    · exact hb l f hmem
    · exact he p hp
  · have hempty : v.levelFiles l = [] := by
      unfold VersionModel.levelFiles
      apply List.getD_eq_default
      rw [buildVersion_files_length h]
      omega
    rw [hempty] at hf
    simp at hf

/-- Filling the bookkeeping fields never touches the edit's file lists. -/
theorem fillFrom_new_files (s : VersionSetState) (e : VersionEdit) :
    (fillFrom s e).new_files = e.new_files := by
  simp only [fillFrom]
  split <;> split <;> split <;> split <;> rfl

/-- The empty version has no files at any level. -/
theorem init_levelFiles (l : Nat) : VersionModel.init.levelFiles l = [] := by
  unfold VersionModel.init VersionModel.levelFiles
  rcases Nat.lt_or_ge l kNumLevels with hl | hl
  · rw [List.getD_eq_getElem _ _ (by simpa using hl)]
    simp
  · apply List.getD_eq_default
    simpa using hl

/-- Invariant of the Builder output at levels ≥ 1 (shared helper, derived
from the guard and the sort). -/
theorem buildVersion_invariant {base : VersionModel} {edit : VersionEdit}
    {v : VersionModel} (h : buildVersion base edit = some v)
    (hb : wfVersionFiles base) (he : wfEditFiles edit) :
    ∀ l, 1 ≤ l → l < kNumLevels → levelInvariant (v.levelFiles l) := by
  intro l hl1 hl7
  apply buildLevel_invariant (buildVersion_levelFiles h l hl7) hl1
  intro f hf
  exact buildVersion_wf h hb he l f hf

/-- Replaying edits from a well-formed seed keeps every version well formed
with invariant I1 at all levels ≥ 1. -/
theorem recover_propInv (edits : List VersionEdit) :
    ∀ v0 v, List.foldlM (fun v e => buildVersion v e) v0 edits = some v →
      wfVersionFiles v0 →
      (∀ l, 1 ≤ l → l < kNumLevels → levelInvariant (v0.levelFiles l)) →
      (∀ e ∈ edits, wfEditFiles e) →
      wfVersionFiles v ∧
        ∀ l, 1 ≤ l → l < kNumLevels → levelInvariant (v.levelFiles l) := by
  induction edits with
  | nil =>
    intro v0 v h hwf hinv _
    simp only [List.foldlM_nil, Option.pure_def, Option.some.injEq] at h
    subst h
    exact ⟨hwf, hinv⟩
  | cons e es ih =>
    intro v0 v h hwf hinv hwfe
    simp only [List.foldlM_cons] at h
    rcases h1 : buildVersion v0 e with _ | v1
    · rw [h1] at h; simp at h
    · rw [h1] at h
      simp only [Option.bind_eq_bind, Option.some_bind] at h
      exact ih v1 v h (buildVersion_wf h1 hwf (hwfe e (by simp)))
        (buildVersion_invariant h1 hwf (hwfe e (by simp)))
        (fun x hx => hwfe x (by simp [hx]))

/-- C2 (confirmed): every Version the system constructs — directly through
the Builder, through a successful `LogAndApply`, or through a `Recover`
replay — satisfies invariant I1 at every level ≥ 1: the file list is sorted
by smallest internal key and the user-key ranges of its files are pairwise
disjoint. -/
theorem version_level_invariant :
    (∀ (base : VersionModel) (edit : VersionEdit) (v : VersionModel),
        buildVersion base edit = some v → wfVersionFiles base →
        wfEditFiles edit →
        ∀ l, 1 ≤ l → l < kNumLevels → levelInvariant (v.levelFiles l)) ∧
      (∀ (s : VersionSetState) (edit : VersionEdit) (ok : Bool)
          (s' : VersionSetState),
        s.LogAndApply edit ok = some (Status.ok, s') →
        wfVersionFiles s.current → wfEditFiles edit →
        ∀ l, 1 ≤ l → l < kNumLevels →
          levelInvariant (s'.current.levelFiles l)) ∧
      (∀ (edits : List VersionEdit) (v : VersionModel),
        recoverReplay edits = some v → (∀ e ∈ edits, wfEditFiles e) →
        ∀ l, 1 ≤ l → l < kNumLevels → levelInvariant (v.levelFiles l)) := by
  refine ⟨fun base edit v h hb he => buildVersion_invariant h hb he, ?_, ?_⟩
  · intro s edit ok s' h hwfv hwfe
    simp only [VersionSetState.LogAndApply] at h
    rcases hb : buildVersion s.current (fillFrom s edit) with _ | v
    · rw [hb] at h
      simp at h
    · rw [hb] at h
      cases ok with
      | false => simp at h
      | true =>
        simp only [if_true, Option.some.injEq, Prod.mk.injEq, true_and] at h
        subst h
        intro l hl1 hl7
        have hinv := buildVersion_invariant hb hwfv
          (by
            unfold wfEditFiles
            rw [fillFrom_new_files]
            exact hwfe) l hl1 hl7
        exact hinv
  · intro edits v h hwfe
    exact (recover_propInv edits VersionModel.init v h
      (fun l f hf => by
        rw [init_levelFiles] at hf
        exact absurd hf (by simp))
      (fun l hl1 hl7 => by
        rw [init_levelFiles]
        exact ⟨List.sorted_nil, List.Pairwise.nil⟩)
      hwfe).2

/-- C2 witness: building over an empty base with one level-1 file yields a
level-1 list satisfying I1. -/
theorem version_level_invariant_witness :
    levelInvariant (sampleVersion.levelFiles 1) :=
  version_level_invariant.1 VersionModel.init sampleAddEdit sampleVersion
    (by decide)
    (fun l f hf => by
      rw [init_levelFiles] at hf
      exact absurd hf (by simp))
    (by
      intro p hp
      simp only [sampleAddEdit, VersionEdit.AddFile, VersionEdit.Clear,
        List.nil_append, List.mem_singleton] at hp
      subst hp
      show userOf sampleKeyA ≤ userOf sampleKeyB
      decide)
    1 (by decide) (by decide)

end LevelDB
